import Mathlib

set_option maxHeartbeats 1000000

/-!
Shallow embedding of the undo/redo transaction log of the `loot-core`
server (`undo.ts`).  Module-level mutable state (`MESSAGE_HISTORY`,
`CURSOR`) is modelled as an explicit `UndoLogState` threaded through the
operations.  Logical-clock timestamps are owned by the external clock
service and are stamped at submission time only, so they are omitted from
the `Message` model; the ambient mutator context is passed explicitly.
-/

namespace ActualUndo

/-- A value carried by a sync message or stored in a snapshot row.
`undef` models a missing JavaScript property (`undefined`), which is
distinct from an explicit `null`. -/
inductive Value where
  | undef
  | null
  | int (n : Int)
  | str (s : String)
  | bool (b : Bool)
deriving DecidableEq, Repr

/-- One column-level write against one row of one dataset (the `Message`
type of the sync layer, without the externally-stamped timestamp). -/
structure Message where
  dataset : String
  row : String
  column : String
  value : Value
deriving DecidableEq, Repr

/-- A snapshot of one row: its column values as they existed before a
batch applied (`oldData[dataset][row]` in the source). -/
abbrev OldItem : Type := List (String × Value)

/-- The `oldData` snapshot passed to `appendMessages`: a finite map from
`(dataset, row)` to the row's prior columns.  The source stores this as a
nested object and reads it with `getIn(oldData, [dataset, row])`; a
flat association list keyed by the pair has the same lookup semantics. -/
abbrev OldData : Type := List ((String × String) × OldItem)

/-- `getIn(oldData, [dataset, row])`: `none` when the row was absent
before the batch (the JS value `undefined`, which is falsy; a present
row object is truthy even when empty). -/
def getIn (oldData : OldData) (dataset row : String) : Option OldItem :=
  (oldData.find? (fun p => p.1.1 == dataset && p.1.2 == row)).map (fun p => p.2)

/-- `oldItem[column]` — reading a property of the snapshot row; absent
properties read as `undefined`. -/
def lookupField (item : OldItem) (column : String) : Value :=
  match item.find? (fun p => p.1 == column) with
  | some p => p.2
  | none => Value.undef

/-- Inverse derivation (`undoMessage` in the source): given a recorded
message and the batch's prior-state snapshot, compute the message that
reverses it, or `none` when the write is irreversible. -/
def undoMessage (message : Message) (oldData : OldData) : Option Message :=
  match getIn oldData message.dataset message.row with
  | some oldItem =>
      -- The spreadsheet messages use the `expr` column, but only as a
      -- placeholder; the prior value is read from `cachedValue` instead.
      let column :=
        if message.dataset = "spreadsheet_cells" then "cachedValue" else message.column
      some { message with value := lookupField oldItem column }
  | none =>
      if message.dataset = "spreadsheet_cells" then
        if message.column = "expr" then
          some { message with value := Value.null }
        else
          some message
      else if message.dataset = "category_mapping" ∨ message.dataset = "payee_mapping" then
        -- The mapping fields aren't ever deleted; never reversed.
        none
      else if message.dataset = "zero_budget_months" ∨ message.dataset = "zero_budgets"
          ∨ message.dataset = "reflect_budgets" then
        if message.column = "buffered" ∨ message.column = "amount"
            ∨ message.column = "carryover" then
          some { message with value := Value.int 0 }
        else
          none
      else if message.dataset = "notes" then
        some { message with value := Value.null }
      else
        some { message with column := "tombstone", value := Value.int 1 }

/-- The payload of a recorded `messages` history entry. -/
structure Batch where
  messages : List Message
  oldData : OldData
  undoTag : String
deriving DecidableEq, Repr

/-- One entry of `MESSAGE_HISTORY`: a transaction boundary marker (with
optional caller metadata, modelled as an optional string) or a recorded
operation batch. -/
inductive HistEntry where
  | marker (meta : Option String)
  | messages (batch : Batch)
deriving DecidableEq, Repr

def isMarker : HistEntry → Bool
  | HistEntry.marker _ => true
  | HistEntry.messages _ => false

/-- Padding value for out-of-range history reads.  Reachable states never
read out of range (the source would throw there). -/
def padMarker : HistEntry := HistEntry.marker none

/-- A padding value that is not a marker, for stating the head-marker
invariant without an emptiness side condition. -/
def padBatch : HistEntry := HistEntry.messages ⟨[], [], ""⟩

/-- `history.filter(item => item.type === 'marker').length`. -/
def markerCount (l : List HistEntry) : Nat := l.countP (fun e => isMarker e)

/-- Reading `.meta` off a history entry: a `messages` entry never has the
field set, so it reads as absent. -/
def metaOf : HistEntry → Option String
  | HistEntry.marker m => m
  | HistEntry.messages _ => none

def entryBatch : HistEntry → Option Batch
  | HistEntry.marker _ => none
  | HistEntry.messages b => some b

/-- The module state: `MESSAGE_HISTORY` and `CURSOR`. -/
structure UndoLogState where
  history : List HistEntry
  cursor : Nat
deriving DecidableEq, Repr

def HISTORY_SIZE : Nat := 20

/-- The initial state: a lone sentinel marker with the cursor on it. -/
def initState : UndoLogState := ⟨[HistEntry.marker none], 0⟩

/-- `clearUndo()` resets to the sentinel state. -/
def clearUndoState : UndoLogState := ⟨[HistEntry.marker none], 0⟩

/-- Index of the `k`-th (0-based) marker of the list.  The source takes
`markers.slice(-HISTORY_SIZE)[0]` (a specific marker object) and finds it
with identity-based `indexOf`, which is exactly the position of that
marker occurrence. -/
def nthMarkerIndex : List HistEntry → Nat → Nat
  | [], _ => 0
  | e :: rest, k =>
    if isMarker e then
      match k with
      | 0 => 0
      | k + 1 => nthMarkerIndex rest k + 1
    else
      nthMarkerIndex rest k + 1

/-- `trimHistory()`: truncate the redo future, then, if more than
`HISTORY_SIZE` markers remain, drop everything before the oldest retained
marker and put the cursor on the last entry. -/
def trimHistory (s : UndoLogState) : UndoLogState :=
  let hist := s.history.take (s.cursor + 1)
  let numMarkers := markerCount hist
  if HISTORY_SIZE < numMarkers then
    let cutoff := nthMarkerIndex hist (numMarkers - HISTORY_SIZE)
    let hist2 := hist.drop cutoff
    ⟨hist2, hist2.length - 1⟩
  else
    ⟨hist, s.cursor⟩

/-- The ambient mutator context relevant to the undo log. -/
structure MutatorContext where
  undoListening : Bool
  undoDisabled : Bool
  undoTag : String
deriving DecidableEq, Repr

/-- `appendMessages(messages, oldData)`: record a batch when the ambient
context is listening and the batch is non-empty; otherwise a no-op.
Note the source consults only `undoListening`, never `undoDisabled`. -/
def appendMessages (context : MutatorContext) (messages : List Message)
    (oldData : OldData) (s : UndoLogState) : UndoLogState :=
  if context.undoListening = true ∧ 0 < messages.length then
    let t := trimHistory s
    ⟨t.history ++ [HistEntry.messages ⟨messages, oldData, context.undoTag⟩], t.cursor + 1⟩
  else
    s

/-- The log effect of entering `withUndo` when the ambient context is
neither listening nor disabled: truncate the redo future, then either
replace a trailing marker in place or push a fresh marker.  (When the
context is disabled or already listening, `withUndo` leaves the log
untouched.)  The history is never empty in any reachable state; on an
empty history the source would throw, here the push branch is taken. -/
def withUndoEnter (meta : Option String) (s : UndoLogState) : UndoLogState :=
  let hist := s.history.take (s.cursor + 1)
  match hist.getLast? with
  | some (HistEntry.marker _) => ⟨hist.dropLast ++ [HistEntry.marker meta], s.cursor⟩
  | _ => ⟨hist ++ [HistEntry.marker meta], s.cursor + 1⟩

/-- The cursor walk of `undo()`: after the initial clamped decrement,
keep moving left while the entry under the cursor is not a marker. -/
def walkBack (hist : List HistEntry) : Nat → Nat
  | 0 => 0
  | c + 1 =>
    if isMarker (hist.getD (c + 1) padMarker) then c + 1
    else walkBack hist c

/-- The new cursor after `undo()`: `max(cursor - 1, 0)` then walk back to
the nearest marker. -/
def undoCursor (s : UndoLogState) : Nat :=
  walkBack s.history (s.cursor - 1)

/-- The operation batches collected by `undo()`:
`MESSAGE_HISTORY.slice(start, end + 1)` filtered to `messages` entries,
with `start` the new cursor and `end` the old cursor. -/
def collectUndoEntries (s : UndoLogState) : List Batch :=
  ((s.history.drop (undoCursor s)).take (s.cursor + 1 - undoCursor s)).filterMap entryBatch

/-- The operation list `undo()` submits: per collected batch, map each
recorded message through `undoMessage` with that batch's snapshot and
drop the nulls, concatenating batch by batch; finally reverse the whole
list. -/
def undoToApply (entries : List Batch) : List Message :=
  (entries.foldl
      (fun acc e => acc ++ (e.messages.map (fun m => undoMessage m e.oldData)).reduceOption)
      []).reverse

/-- The deduplicated dataset list computed by `applyUndoAction` for the
announced event. -/
def tablesOf (messages : List Message) : List String :=
  messages.foldl (fun acc m => if m.dataset ∈ acc then acc else acc ++ [m.dataset]) []

/-- The `undo-event` payload announced by `applyUndoAction`. -/
structure UndoEvent where
  messages : List Message
  tables : List String
  meta : Option String
  undoTag : String
deriving DecidableEq, Repr

/-- The log effect of `applyUndoAction`: the derived batch is sent under
a context with `undoListening := false` (other fields inherited), so the
sync layer's re-entry into `appendMessages` does not record it. -/
def applyUndoActionState (context : MutatorContext) (toApply : List Message)
    (oldData : OldData) (s : UndoLogState) : UndoLogState :=
  appendMessages { context with undoListening := false } toApply oldData s

/-- `undo()`: move the cursor to the nearest preceding marker, collect
the crossed batches, derive and submit their inverses (none collected ⇒
nothing submitted).  Returns the new state and the announced event, if
any. -/
def undoRun (context : MutatorContext) (oldData : OldData) (s : UndoLogState) :
    UndoLogState × Option UndoEvent :=
  match collectUndoEntries s with
  | [] => (⟨s.history, undoCursor s⟩, none)
  | e :: rest =>
    (applyUndoActionState context (undoToApply (e :: rest)) oldData ⟨s.history, undoCursor s⟩,
      some ⟨undoToApply (e :: rest), tablesOf (undoToApply (e :: rest)),
        metaOf (s.history.getD (undoCursor s) padMarker), e.undoTag⟩)

/-- The cursor walk of `redo()`, fuelled to stay structurally recursive:
keep moving right while not on the last entry and not on a marker.  Fuel
`hist.length` always suffices. -/
def walkForwardAux (hist : List HistEntry) : Nat → Nat → Nat
  | 0, c => c
  | fuel + 1, c =>
    if c < hist.length - 1 ∧ isMarker (hist.getD c padMarker) = false then
      walkForwardAux hist fuel (c + 1)
    else c

/-- The new cursor after `redo()`: `min(cursor + 1, length - 1)` then
walk forward to the nearest marker (clamped at the last index). -/
def redoCursor (s : UndoLogState) : Nat :=
  walkForwardAux s.history s.history.length (min (s.cursor + 1) (s.history.length - 1))

/-- The operation batches collected by `redo()`:
`MESSAGE_HISTORY.slice(start + 1, end + 1)` filtered to `messages`
entries, with `start` the old cursor and `end` the new cursor. -/
def collectRedoEntries (s : UndoLogState) : List Batch :=
  ((s.history.drop (s.cursor + 1)).take (redoCursor s - s.cursor)).filterMap entryBatch

/-- The datasets whose rows are never resurrected by redo. -/
def nonResurrectableDatasets : List String :=
  ["zero_budget_months", "zero_budgets", "reflect_budgets", "notes",
   "category_mapping", "payee_mapping"]

/-- Adding to a JS `Set` of strings: insertion-ordered, first insertion
wins. -/
def insertUniq (acc : List String) (key : String) : List String :=
  if key ∈ acc then acc else acc ++ [key]

/-- JavaScript `string.split(sep)` for a one-character separator, on the
character list: never returns an empty list, keeps empty segments. -/
def splitChars (sep : Char) : List Char → List (List Char)
  | [] => [[]]
  | c :: rest =>
    if c = sep then [] :: splitChars sep rest
    else
      match splitChars sep rest with
      | [] => [[c]]
      | g :: gs => (c :: g) :: gs

/-- `desc.split('.')`, as used to undo the `dataset + '.' + row` key
join. -/
def jsSplitDot (s : String) : List String :=
  (splitChars '.' s.toList).map (fun cs => String.mk cs)

/-- `redoResurrections`: collect `dataset + "." + row` keys of messages
whose row was absent from the snapshot and whose dataset is
resurrectable, deduplicated in insertion order, then map each key back
through `split('.')` to a tombstone-clear message (destructuring takes
the first two segments). -/
def redoResurrections (messages : List Message) (oldData : OldData) : List Message :=
  (messages.foldl
      (fun acc message =>
        if (getIn oldData message.dataset message.row).isNone
            ∧ message.dataset ∉ nonResurrectableDatasets then
          insertUniq acc (message.dataset ++ "." ++ message.row)
        else acc)
      []).map
    (fun desc =>
      { dataset := (jsSplitDot desc).getD 0 "", row := (jsSplitDot desc).getD 1 "",
        column := "tombstone", value := Value.int 0 })

/-- The operation list `redo()` submits: per collected batch in order,
the batch's original messages followed by that batch's resurrections. -/
def redoToApply (entries : List Batch) : List Message :=
  entries.foldl (fun acc e => acc ++ e.messages ++ redoResurrections e.messages e.oldData) []

/-- `redo()`: note the announced `meta` is read at the old cursor (only
when that entry is a marker), and the tag comes from the last collected
batch. -/
def redoRun (context : MutatorContext) (oldData : OldData) (s : UndoLogState) :
    UndoLogState × Option UndoEvent :=
  match collectRedoEntries s with
  | [] => (⟨s.history, redoCursor s⟩, none)
  | e :: rest =>
    (applyUndoActionState context (redoToApply (e :: rest)) oldData ⟨s.history, redoCursor s⟩,
      some ⟨redoToApply (e :: rest), tablesOf (redoToApply (e :: rest)),
        metaOf (s.history.getD s.cursor padMarker), (rest.getLastD e).undoTag⟩)

/-- One recorded batch of a transaction, as handed to `appendMessages`
by the sync layer. -/
structure RecordedBatch where
  messages : List Message
  oldData : OldData
deriving DecidableEq, Repr

/-- One `withUndo` transaction: the marker metadata and the batches the
wrapped unit of work records while the scope is listening. -/
structure Txn where
  meta : Option String
  tag : String
  batches : List RecordedBatch
deriving DecidableEq, Repr

/-- Run one transaction against the log: enter the `withUndo` scope
(ambient context neither listening nor disabled), then record each batch
under the listening context the scope installs. -/
def runTxn (t : Txn) (s : UndoLogState) : UndoLogState :=
  t.batches.foldl
    (fun s b => appendMessages ⟨true, false, t.tag⟩ b.messages b.oldData s)
    (withUndoEnter t.meta s)

def runTxns (ts : List Txn) (s : UndoLogState) : UndoLogState :=
  ts.foldl (fun s t => runTxn t s) s

/-- The log states reachable from the initial sentinel state by the
public operations. -/
inductive Reachable : UndoLogState → Prop where
  | init : Reachable initState
  | withUndoStep (meta : Option String) {s : UndoLogState} :
      Reachable s → Reachable (withUndoEnter meta s)
  | appendStep (context : MutatorContext) (messages : List Message) (oldData : OldData)
      {s : UndoLogState} : Reachable s → Reachable (appendMessages context messages oldData s)
  | undoStep (context : MutatorContext) (oldData : OldData) {s : UndoLogState} :
      Reachable s → Reachable (undoRun context oldData s).1
  | redoStep (context : MutatorContext) (oldData : OldData) {s : UndoLogState} :
      Reachable s → Reachable (redoRun context oldData s).1
  | clearStep {s : UndoLogState} : Reachable s → Reachable clearUndoState

/-! ### Definitions taken from the spec's words, for refinement claims -/

/-- Modelled from the spec (§4.3 undo step 4): the inverses of the
collected operations in reverse chronological order across all collected
batches (the latest recorded operation's inverse first), each derived
with its own batch's snapshot, null inverses dropped. -/
def specUndoSubmission (entries : List Batch) : List Message :=
  entries.reverse.flatMap
    (fun e => e.messages.reverse.filterMap (fun m => undoMessage m e.oldData))

/-- Modelled from the spec (§4.4 Resurrection), applied to one batch: one
tombstone-clear per distinct `(dataset, row)` pair among the batch's
qualifying operations (row absent from the snapshot, dataset not in the
non-resurrectable list), in first-occurrence order. -/
def specResurrections (messages : List Message) (oldData : OldData) : List Message :=
  ((messages.filter
        (fun m => (getIn oldData m.dataset m.row).isNone
          && decide (m.dataset ∉ nonResurrectableDatasets))).foldl
      (fun acc m => if (m.dataset, m.row) ∈ acc then acc else acc ++ [(m.dataset, m.row)])
      []).map
    (fun p => ⟨p.1, p.2, "tombstone", Value.int 0⟩)

/-! ### Basic facts about the submission pipeline -/

theorem appendMessages_no_op {context : MutatorContext} {messages : List Message}
    {oldData : OldData} {s : UndoLogState}
    (h : context.undoListening = false ∨ messages = []) :
    appendMessages context messages oldData s = s := by
  rcases h with h | h <;> simp [appendMessages, h]

theorem applyUndoActionState_eq (context : MutatorContext) (toApply : List Message)
    (oldData : OldData) (s : UndoLogState) :
    applyUndoActionState context toApply oldData s = s :=
  appendMessages_no_op (Or.inl rfl)

theorem undoRun_fst (context : MutatorContext) (oldData : OldData) (s : UndoLogState) :
    (undoRun context oldData s).1 = ⟨s.history, undoCursor s⟩ := by
  unfold undoRun
  split <;> simp [applyUndoActionState_eq]

theorem redoRun_fst (context : MutatorContext) (oldData : OldData) (s : UndoLogState) :
    (redoRun context oldData s).1 = ⟨s.history, redoCursor s⟩ := by
  unfold redoRun
  split <;> simp [applyUndoActionState_eq]

/-! ### Claim C10 -/

/-- C10: `undo()` and `redo()` modify only the cursor: the history's
entry sequence is exactly the same after the call as before, whether or
not any batches were collected, and no trimming happens on the way (the
derived batch is submitted under a non-listening context, so the sync
layer's re-entry into `appendMessages` — the only caller of
`trimHistory` — is a no-op). -/
theorem claim_C10_undo_redo_touch_only_cursor (context : MutatorContext)
    (oldData : OldData) (s : UndoLogState) :
    (undoRun context oldData s).1.history = s.history
      ∧ (undoRun context oldData s).1.cursor = undoCursor s
      ∧ (redoRun context oldData s).1.history = s.history
      ∧ (redoRun context oldData s).1.cursor = redoCursor s := by
  rw [undoRun_fst, redoRun_fst]
  exact ⟨rfl, rfl, rfl, rfl⟩

/-! ### Claim C2 -/

/-- C2: if the snapshot has the touched row and a prior value for the
read column (`cachedValue` for the synthetic-placeholder dataset
`spreadsheet_cells`, the written column otherwise), the derived inverse
targets the same dataset, row and column and carries exactly that prior
value. -/
theorem claim_C2_inverse_restores_prior_value (message : Message) (oldData : OldData)
    (oldItem : OldItem) (v : Value)
    (hrow : getIn oldData message.dataset message.row = some oldItem)
    (hval : (oldItem.find? (fun p =>
        p.1 == (if message.dataset = "spreadsheet_cells" then "cachedValue"
                else message.column))).map (fun p => p.2) = some v) :
    undoMessage message oldData = some { message with value := v } := by
  obtain ⟨p, hp, hpv⟩ := Option.map_eq_some'.mp hval
  simp only [undoMessage, hrow, lookupField, hp, hpv]

/-- Witness for C2 at the spec's Example 2: prior value `amount = 300`,
recorded value `500`; undo derives `amount := 300`. -/
theorem claim_C2_witness :
    undoMessage ⟨"transactions", "r1", "amount", Value.int 500⟩
        [(("transactions", "r1"), [("amount", Value.int 300)])]
      = some ⟨"transactions", "r1", "amount", Value.int 300⟩ :=
  claim_C2_inverse_restores_prior_value _ _ [("amount", Value.int 300)] (Value.int 300)
    (by decide) (by decide)

/-! ### Claim C9 -/

/-- C9 counterexample: a `spreadsheet_cells` operation whose row has no
snapshot entry and whose column is not `expr` is returned unchanged by
`undoMessage` — the original written value, not an empty/null sentinel —
refuting the claim that the inverse clears the field regardless of
column. -/
theorem claim_C9_counterexample :
    undoMessage ⟨"spreadsheet_cells", "r", "cachedValue", Value.str "x"⟩ []
        = some ⟨"spreadsheet_cells", "r", "cachedValue", Value.str "x"⟩
      ∧ Value.str "x" ≠ Value.null := by
  exact ⟨rfl, by decide⟩

/-- C9 amended: for a `spreadsheet_cells` operation whose row has no
prior snapshot entry, the inverse clears the value to `null` when the
written column is the placeholder column `expr`, and otherwise returns
the original operation unchanged; in neither case is tombstone logic
attempted. -/
theorem claim_C9_amended (message : Message) (oldData : OldData)
    (hds : message.dataset = "spreadsheet_cells")
    (hrow : getIn oldData message.dataset message.row = none) :
    undoMessage message oldData
      = some (if message.column = "expr" then { message with value := Value.null }
              else message) := by
  obtain ⟨d, r, col, v⟩ := message
  have hds' : d = "spreadsheet_cells" := hds
  subst hds'
  have hrow' : getIn oldData "spreadsheet_cells" r = none := hrow
  simp only [undoMessage, hrow']
  by_cases hc : col = "expr" <;> simp [hc]

/-- Witness for C9 at a concrete `expr` write. -/
theorem claim_C9_witness :
    undoMessage ⟨"spreadsheet_cells", "c1", "expr", Value.str "e"⟩ []
      = some ⟨"spreadsheet_cells", "c1", "expr", Value.null⟩ := by
  have h := claim_C9_amended ⟨"spreadsheet_cells", "c1", "expr", Value.str "e"⟩ [] rfl rfl
  simpa using h

/-! ### Claim C7 -/

/-- C7 counterexample: with `undoDisabled = true` but `undoListening =
true` and a non-empty batch, `appendMessages` does record — the log
changes — refuting the claim that `disabled = true` alone makes it a
no-op. -/
theorem claim_C7_counterexample :
    appendMessages ⟨true, true, "t"⟩ [⟨"transactions", "r1", "amount", Value.int 500⟩]
        [] initState
      ≠ initState := by decide

/-- C7 amended: `appendMessages` is a no-op exactly when the ambient
context is not listening or the batch is empty; the `undoDisabled` flag
is not consulted by `appendMessages` (it suppresses recording only
indirectly, because `withUndo` never turns listening on under a disabled
context). -/
theorem claim_C7_amended (context : MutatorContext) (messages : List Message)
    (oldData : OldData) (s : UndoLogState)
    (h : context.undoListening = false ∨ messages = []) :
    appendMessages context messages oldData s = s :=
  appendMessages_no_op h

/-- Witness for C7 at a non-listening context. -/
theorem claim_C7_witness :
    appendMessages ⟨false, false, ""⟩ [⟨"transactions", "r1", "amount", Value.int 500⟩]
        [] initState
      = initState :=
  claim_C7_amended _ _ _ _ (Or.inl rfl)

/-! ### Claim C4 -/

theorem foldl_append_eq_flatMap {α β : Type} (g : α → List β) (l : List α) (acc : List β) :
    l.foldl (fun a e => a ++ g e) acc = acc ++ l.flatMap g := by
  induction l generalizing acc with
  | nil => simp
  | cons e rest ih => simp [ih, List.flatMap_cons, List.append_assoc]

theorem reverse_flatMap_rev {α β : Type} (g : α → List β) (l : List α) :
    (l.flatMap g).reverse = l.reverse.flatMap (fun e => (g e).reverse) := by
  induction l with
  | nil => simp
  | cons e rest ih => simp [List.flatMap_cons, List.flatMap_append, ih]

theorem reduceOption_map_eq {α β : Type} (f : α → Option β) (l : List α) :
    (l.map f).reduceOption = l.filterMap f := by
  simp [List.reduceOption, List.filterMap_map]

theorem undoToApply_eq_spec (entries : List Batch) :
    undoToApply entries = specUndoSubmission entries := by
  unfold undoToApply specUndoSubmission
  rw [foldl_append_eq_flatMap, List.nil_append, reverse_flatMap_rev]
  have h : ∀ e : Batch,
      ((e.messages.map (fun m => undoMessage m e.oldData)).reduceOption).reverse
        = e.messages.reverse.filterMap (fun m => undoMessage m e.oldData) := by
    intro e
    rw [reduceOption_map_eq]
    simp [List.filterMap_reverse]
  simp only [h]

/-- C4: whenever `undo()` collects at least one batch, the submitted
operation list is exactly the inverses of the collected operations in
reverse chronological order across all collected batches (latest
operation's inverse first), each inverse derived with its own batch's
snapshot, and null inverses omitted entirely. -/
theorem claim_C4_undo_submission_order (context : MutatorContext) (oldData : OldData)
    (s : UndoLogState) (h : collectUndoEntries s ≠ []) :
    ∃ ev, (undoRun context oldData s).2 = some ev
      ∧ ev.messages = specUndoSubmission (collectUndoEntries s) := by
  unfold undoRun
  cases hE : collectUndoEntries s with
  | nil => exact absurd hE h
  | cons e rest => exact ⟨_, rfl, undoToApply_eq_spec (e :: rest)⟩

/-- A concrete state with one recorded batch, used as the C4 witness. -/
def c4State : UndoLogState :=
  ⟨[HistEntry.marker none,
    HistEntry.messages ⟨[⟨"transactions", "r1", "amount", Value.int 500⟩], [], "t"⟩], 1⟩

/-- Witness for C4 at `c4State`. -/
theorem claim_C4_witness :
    collectUndoEntries c4State ≠ []
      ∧ ∃ ev, (undoRun ⟨false, false, ""⟩ [] c4State).2 = some ev
          ∧ ev.messages = specUndoSubmission (collectUndoEntries c4State) :=
  ⟨by decide, claim_C4_undo_submission_order _ _ _ (by decide)⟩

/-! ### Claim C8 -/

theorem walkForwardAux_at_end (hist : List HistEntry) (fuel c : Nat)
    (h : hist.length - 1 ≤ c) : walkForwardAux hist fuel c = c := by
  cases fuel with
  | zero => rfl
  | succ n =>
    unfold walkForwardAux
    exact if_neg (fun hc => absurd hc.1 (Nat.not_lt.mpr h))

theorem redoCursor_at_end (s : UndoLogState) (h : s.cursor + 1 = s.history.length) :
    redoCursor s = s.cursor := by
  unfold redoCursor
  have h1 : min (s.cursor + 1) (s.history.length - 1) = s.cursor := by omega
  rw [h1]
  exact walkForwardAux_at_end _ _ _ (by omega)

theorem collectRedoEntries_at_end (s : UndoLogState) (h : s.cursor + 1 = s.history.length) :
    collectRedoEntries s = [] := by
  unfold collectRedoEntries
  rw [List.drop_eq_nil_of_le (by omega)]
  simp

theorem redoRun_at_end (context : MutatorContext) (oldData : OldData) (s : UndoLogState)
    (h : s.cursor + 1 = s.history.length) :
    redoRun context oldData s = (s, none) := by
  obtain ⟨hist, c⟩ := s
  have hc : collectRedoEntries ⟨hist, c⟩ = [] := collectRedoEntries_at_end _ h
  unfold redoRun
  rw [hc, redoCursor_at_end _ h]

theorem withUndoEnter_shape (meta : Option String) (s : UndoLogState)
    (h : s.cursor + 1 ≤ s.history.length) :
    (withUndoEnter meta s).history.length = (withUndoEnter meta s).cursor + 1
      ∧ (withUndoEnter meta s).history.take s.cursor = s.history.take s.cursor := by
  have hlen : (s.history.take (s.cursor + 1)).length = s.cursor + 1 := by
    rw [List.length_take]; omega
  have hlen2 : (s.history.take s.cursor).length = s.cursor := by
    rw [List.length_take]; omega
  have hdl : (s.history.take (s.cursor + 1)).dropLast = s.history.take s.cursor := by
    rw [List.dropLast_eq_take, hlen, List.take_take]
    congr 1
    omega
  cases hL : (s.history.take (s.cursor + 1)).getLast? with
  | none =>
    exfalso
    rw [List.getLast?_eq_none_iff] at hL
    rw [hL] at hlen
    simp at hlen
  | some e =>
    cases e with
    | marker m =>
      simp only [withUndoEnter, hL]
      refine ⟨?_, ?_⟩
      · simp [hdl, hlen2]
      · rw [hdl, List.take_append_of_le_length (le_of_eq hlen2.symm)]
        exact List.take_of_length_le (le_of_eq hlen2)
    | messages b =>
      simp only [withUndoEnter, hL]
      refine ⟨?_, ?_⟩
      · simp [hlen]
      · rw [List.take_append_of_le_length (by omega), List.take_take]
        congr 1
        omega

/-- C8: starting a new transaction (entering `withUndo` under a context
that is neither listening nor disabled) while the cursor is strictly
before the last entry discards every entry after the cursor — the new
history is exactly the old prefix up to the cursor plus one trailing
marker, with the cursor on it — and an immediately following `redo()`
collects no batches, submits nothing, and leaves the state unchanged. -/
theorem claim_C8_new_txn_discards_redo_future (meta : Option String)
    (context : MutatorContext) (oldData : OldData) (s : UndoLogState)
    (h : s.cursor + 1 < s.history.length) :
    (withUndoEnter meta s).history.length = (withUndoEnter meta s).cursor + 1
      ∧ (withUndoEnter meta s).history.take s.cursor = s.history.take s.cursor
      ∧ collectRedoEntries (withUndoEnter meta s) = []
      ∧ redoRun context oldData (withUndoEnter meta s) = (withUndoEnter meta s, none) := by
  obtain ⟨h1, h2⟩ := withUndoEnter_shape meta s (le_of_lt h)
  exact ⟨h1, h2, collectRedoEntries_at_end _ h1.symm, redoRun_at_end _ _ _ h1.symm⟩

/-- A concrete state whose cursor sits strictly before the last entry,
used as the C8 witness. -/
def c8State : UndoLogState :=
  ⟨[HistEntry.marker none,
    HistEntry.messages ⟨[⟨"transactions", "r1", "amount", Value.int 500⟩], [], "t"⟩,
    HistEntry.messages ⟨[⟨"notes", "n1", "note", Value.str "n"⟩], [], "t"⟩], 0⟩

/-- Witness for C8 at `c8State`. -/
theorem claim_C8_witness :
    c8State.cursor + 1 < c8State.history.length
      ∧ ((withUndoEnter none c8State).history.length = (withUndoEnter none c8State).cursor + 1
        ∧ (withUndoEnter none c8State).history.take c8State.cursor
            = c8State.history.take c8State.cursor
        ∧ collectRedoEntries (withUndoEnter none c8State) = []
        ∧ redoRun ⟨false, false, ""⟩ [] (withUndoEnter none c8State)
            = (withUndoEnter none c8State, none)) :=
  ⟨by decide, claim_C8_new_txn_discards_redo_future none ⟨false, false, ""⟩ [] c8State (by decide)⟩

/-! ### Claim C3 -/

theorem flatMap_congr_mem {α β : Type} {l : List α} {f g : α → List β}
    (h : ∀ a ∈ l, f a = g a) : l.flatMap f = l.flatMap g := by
  induction l with
  | nil => rfl
  | cons e rest ih =>
    rw [List.flatMap_cons, List.flatMap_cons, h e (by simp),
      ih (fun a ha => h a (by simp [ha]))]

theorem redoToApply_flatMap_aux (entries : List Batch) (acc : List Message) :
    entries.foldl
        (fun acc e => acc ++ e.messages ++ redoResurrections e.messages e.oldData) acc
      = acc ++ entries.flatMap
          (fun e => e.messages ++ redoResurrections e.messages e.oldData) := by
  induction entries generalizing acc with
  | nil => simp
  | cons e rest ih =>
    rw [List.foldl_cons, List.flatMap_cons, ih]
    simp [List.append_assoc]

theorem redoToApply_flatMap (entries : List Batch) :
    redoToApply entries
      = entries.flatMap (fun e => e.messages ++ redoResurrections e.messages e.oldData) := by
  unfold redoToApply
  rw [redoToApply_flatMap_aux, List.nil_append]

theorem resurrect_fold_eq (oldData : OldData) : ∀ (msgs : List Message)
    (accK : List String) (accP : List (String × String)),
    (∀ m ∈ msgs, jsSplitDot (m.dataset ++ "." ++ m.row) = [m.dataset, m.row]) →
    accK = accP.map (fun p => p.1 ++ "." ++ p.2) →
    (∀ p ∈ accP, jsSplitDot (p.1 ++ "." ++ p.2) = [p.1, p.2]) →
    (msgs.foldl
        (fun acc message =>
          if (getIn oldData message.dataset message.row).isNone
              ∧ message.dataset ∉ nonResurrectableDatasets then
            insertUniq acc (message.dataset ++ "." ++ message.row)
          else acc)
        accK).map
      (fun desc =>
        ({ dataset := (jsSplitDot desc).getD 0 "", row := (jsSplitDot desc).getD 1 "",
           column := "tombstone", value := Value.int 0 } : Message))
      = ((msgs.filter
            (fun m => (getIn oldData m.dataset m.row).isNone
              && decide (m.dataset ∉ nonResurrectableDatasets))).foldl
          (fun acc m => if (m.dataset, m.row) ∈ acc then acc else acc ++ [(m.dataset, m.row)])
          accP).map
        (fun p => (⟨p.1, p.2, "tombstone", Value.int 0⟩ : Message)) := by
  intro msgs
  induction msgs with
  | nil =>
    intro accK accP _ hacc hfacts
    subst hacc
    simp only [List.foldl_nil, List.filter_nil, List.map_map]
    exact List.map_congr_left (fun p hp => by
      simp [Function.comp, hfacts p hp])
  | cons m rest ih =>
    intro accK accP hmsgs hacc hfacts
    have hm := hmsgs m (by simp)
    have hrest : ∀ x ∈ rest, jsSplitDot (x.dataset ++ "." ++ x.row) = [x.dataset, x.row] :=
      fun x hx => hmsgs x (by simp [hx])
    rw [List.foldl_cons, List.filter_cons]
    by_cases hq : (getIn oldData m.dataset m.row).isNone = true
        ∧ m.dataset ∉ nonResurrectableDatasets
    · rw [if_pos hq,
        if_pos (show ((getIn oldData m.dataset m.row).isNone
            && decide (m.dataset ∉ nonResurrectableDatasets)) = true by
          rw [Bool.and_eq_true, decide_eq_true_eq]; exact hq)]
      rw [List.foldl_cons]
      have hmem : (m.dataset ++ "." ++ m.row) ∈ accK ↔ (m.dataset, m.row) ∈ accP := by
        subst hacc
        constructor
        · intro hk
          obtain ⟨p, hp, hkey⟩ := List.mem_map.mp hk
          have hps := hfacts p hp
          rw [hkey, hm] at hps
          have hps' : m.dataset = p.1 ∧ m.row = p.2 := by simpa using hps
          have hpe : p = (m.dataset, m.row) := Prod.ext hps'.1.symm hps'.2.symm
          rw [← hpe]
          exact hp
        · intro hp
          exact List.mem_map.mpr ⟨(m.dataset, m.row), hp, rfl⟩
      unfold insertUniq
      by_cases hmemP : (m.dataset, m.row) ∈ accP
      · rw [if_pos (hmem.mpr hmemP), if_pos hmemP]
        exact ih accK accP hrest hacc hfacts
      · rw [if_neg (fun hk => hmemP (hmem.mp hk)), if_neg hmemP]
        refine ih _ _ hrest ?_ ?_
        · rw [hacc, List.map_append]
          rfl
        · intro p hp
          rcases List.mem_append.mp hp with hp | hp
          · exact hfacts p hp
          · have hpe : p = (m.dataset, m.row) := by simpa using hp
            rw [hpe]
            exact hm
    · rw [if_neg hq,
        if_neg (show ¬((getIn oldData m.dataset m.row).isNone
            && decide (m.dataset ∉ nonResurrectableDatasets)) = true from fun hb =>
          hq (by rw [Bool.and_eq_true, decide_eq_true_eq] at hb; exact hb))]
      exact ih accK accP hrest hacc hfacts

theorem redoResurrections_eq_spec (messages : List Message) (oldData : OldData)
    (h : ∀ m ∈ messages, jsSplitDot (m.dataset ++ "." ++ m.row) = [m.dataset, m.row]) :
    redoResurrections messages oldData = specResurrections messages oldData := by
  unfold redoResurrections specResurrections
  exact resurrect_fold_eq oldData messages [] [] h rfl (by simp)

/-- The base state for the C3 counterexample: one transaction that
recorded two batches, each creating row `r2` of `payees` (absent from
both snapshots). -/
def c3Base : UndoLogState :=
  appendMessages ⟨true, false, "t"⟩ [⟨"payees", "r2", "name", Value.str "x"⟩] []
    (appendMessages ⟨true, false, "t"⟩ [⟨"payees", "r2", "name", Value.str "x"⟩] []
      (withUndoEnter none initState))

/-- The C3 counterexample state: `c3Base` after one `undo()`. -/
def c3State : UndoLogState := (undoRun ⟨false, false, ""⟩ [] c3Base).1

/-- C3 counterexample: redo over a range holding two batches that both
created `payees.r2` submits two tombstone-clears for the same
`(dataset, row)` pair, each placed right after its own batch's replayed
originals — not one clear deduplicated across the whole batch and not
appended after all the originals. -/
theorem claim_C3_counterexample :
    Reachable c3State
      ∧ c3State = ⟨[HistEntry.marker none,
          HistEntry.messages ⟨[⟨"payees", "r2", "name", Value.str "x"⟩], [], "t"⟩,
          HistEntry.messages ⟨[⟨"payees", "r2", "name", Value.str "x"⟩], [], "t"⟩], 0⟩
      ∧ (redoRun ⟨false, false, ""⟩ [] c3State).2
          = some ⟨[⟨"payees", "r2", "name", Value.str "x"⟩,
                   ⟨"payees", "r2", "tombstone", Value.int 0⟩,
                   ⟨"payees", "r2", "name", Value.str "x"⟩,
                   ⟨"payees", "r2", "tombstone", Value.int 0⟩],
                  ["payees"], none, "t"⟩
      ∧ ((redoRun ⟨false, false, ""⟩ [] c3State).2.elim [] UndoEvent.messages).countP
            (fun m => m.column == "tombstone" && m.value == Value.int 0) = 2 := by
  refine ⟨?_, by decide, by decide, by decide⟩
  exact Reachable.undoStep ⟨false, false, ""⟩ []
    (Reachable.appendStep ⟨true, false, "t"⟩ _ []
      (Reachable.appendStep ⟨true, false, "t"⟩ _ []
        (Reachable.withUndoStep none Reachable.init)))

/-- C3 amended: for every `redo()` traversal that collects at least one
batch (and whose dataset/row names survive the `dataset + '.' + row`
round-trip, i.e. contain no dot), the submitted list is, per collected
batch in order, the batch's original operations followed by exactly one
tombstone-clear per distinct `(dataset, row)` pair among that batch's
qualifying operations (no prior value in that batch's snapshot, dataset
not in the non-resurrectable list) — deduplicated within each batch, not
across the whole submitted list, and appended after that batch's
originals, not after all the replayed originals. -/
theorem claim_C3_amended (context : MutatorContext) (oldData : OldData) (s : UndoLogState)
    (hne : collectRedoEntries s ≠ [])
    (hsplit : ∀ e ∈ collectRedoEntries s, ∀ m ∈ e.messages,
        jsSplitDot (m.dataset ++ "." ++ m.row) = [m.dataset, m.row]) :
    ∃ ev, (redoRun context oldData s).2 = some ev
      ∧ ev.messages = (collectRedoEntries s).flatMap
          (fun e => e.messages ++ specResurrections e.messages e.oldData) := by
  unfold redoRun
  cases hE : collectRedoEntries s with
  | nil => exact absurd hE hne
  | cons e rest =>
    rw [hE] at hsplit
    refine ⟨_, rfl, ?_⟩
    rw [redoToApply_flatMap]
    exact flatMap_congr_mem (fun b hb => by
      rw [redoResurrections_eq_spec b.messages b.oldData (hsplit b hb)])

/-- Witness for the amended C3 at `c3State`. -/
theorem claim_C3_witness :
    collectRedoEntries c3State ≠ []
      ∧ (∀ e ∈ collectRedoEntries c3State, ∀ m ∈ e.messages,
          jsSplitDot (m.dataset ++ "." ++ m.row) = [m.dataset, m.row])
      ∧ ∃ ev, (redoRun ⟨false, false, ""⟩ [] c3State).2 = some ev
          ∧ ev.messages = (collectRedoEntries c3State).flatMap
              (fun e => e.messages ++ specResurrections e.messages e.oldData) :=
  ⟨by decide, by decide, claim_C3_amended ⟨false, false, ""⟩ [] c3State (by decide) (by decide)⟩

/-! ### Index and counting utilities -/

theorem getD_take_eq {α : Type} (l : List α) (n i : Nat) (d : α) (h : i < n) :
    (l.take n).getD i d = l.getD i d := by
  rw [List.getD_eq_getElem?_getD, List.getD_eq_getElem?_getD, List.getElem?_take, if_pos h]

theorem getD_drop_add {α : Type} (l : List α) (k i : Nat) (d : α) :
    (l.drop k).getD i d = l.getD (k + i) d := by
  rw [List.getD_eq_getElem?_getD, List.getD_eq_getElem?_getD, List.getElem?_drop]

theorem getD_append_left {α : Type} (l l' : List α) (i : Nat) (d : α) (h : i < l.length) :
    (l ++ l').getD i d = l.getD i d :=
  List.getD_append l l' d i h

theorem getD_append_at {α : Type} (l : List α) (x : α) (d : α) :
    (l ++ [x]).getD l.length d = x := by
  rw [List.getD_append_right l [x] d l.length (le_refl _)]
  simp

theorem markerCount_cons (e : HistEntry) (l : List HistEntry) :
    markerCount (e :: l) = markerCount l + (if isMarker e then 1 else 0) :=
  List.countP_cons _ _ _

theorem markerCount_cons_marker {e : HistEntry} (l : List HistEntry)
    (he : isMarker e = true) : markerCount (e :: l) = markerCount l + 1 := by
  simp [markerCount, List.countP_cons, he]

theorem markerCount_cons_batch {e : HistEntry} (l : List HistEntry)
    (he : isMarker e = false) : markerCount (e :: l) = markerCount l := by
  simp [markerCount, List.countP_cons, he]

theorem nthMarkerIndex_cons_marker_zero {e : HistEntry} (l : List HistEntry)
    (he : isMarker e = true) : nthMarkerIndex (e :: l) 0 = 0 := by
  simp [nthMarkerIndex, he]

theorem nthMarkerIndex_cons_marker_succ {e : HistEntry} (l : List HistEntry) (k : Nat)
    (he : isMarker e = true) : nthMarkerIndex (e :: l) (k + 1) = nthMarkerIndex l k + 1 := by
  simp [nthMarkerIndex, he]

theorem nthMarkerIndex_cons_batch {e : HistEntry} (l : List HistEntry) (k : Nat)
    (he : isMarker e = false) : nthMarkerIndex (e :: l) k = nthMarkerIndex l k + 1 := by
  simp [nthMarkerIndex, he]

theorem markerCount_append (l l' : List HistEntry) :
    markerCount (l ++ l') = markerCount l + markerCount l' :=
  List.countP_append _ _ _

theorem markerCount_take_le (l : List HistEntry) (n : Nat) :
    markerCount (l.take n) ≤ markerCount l :=
  List.Sublist.countP_le _ (List.take_sublist n l)

theorem nthMarkerIndex_lt_length (l : List HistEntry) (k : Nat) (h : k < markerCount l) :
    nthMarkerIndex l k < l.length := by
  induction l generalizing k with
  | nil => simp [markerCount, List.countP_nil] at h
  | cons e rest ih =>
    cases he : isMarker e with
    | true =>
      rw [markerCount_cons_marker rest he] at h
      cases k with
      | zero =>
        rw [nthMarkerIndex_cons_marker_zero rest he]
        simp
      | succ k =>
        rw [nthMarkerIndex_cons_marker_succ rest k he]
        have := ih k (by omega)
        simp only [List.length_cons]
        omega
    | false =>
      rw [markerCount_cons_batch rest he] at h
      rw [nthMarkerIndex_cons_batch rest k he]
      have := ih k h
      simp only [List.length_cons]
      omega

theorem markerCount_drop_nthMarkerIndex (l : List HistEntry) (k : Nat)
    (h : k ≤ markerCount l) :
    markerCount (l.drop (nthMarkerIndex l k)) = markerCount l - k := by
  induction l generalizing k with
  | nil => simp [nthMarkerIndex, markerCount, List.countP_nil]
  | cons e rest ih =>
    cases he : isMarker e with
    | true =>
      rw [markerCount_cons_marker rest he] at h ⊢
      cases k with
      | zero =>
        rw [nthMarkerIndex_cons_marker_zero rest he, List.drop_zero,
          markerCount_cons_marker rest he]
        omega
      | succ k =>
        rw [nthMarkerIndex_cons_marker_succ rest k he, List.drop_succ_cons, ih k (by omega)]
        omega
    | false =>
      rw [markerCount_cons_batch rest he] at h ⊢
      rw [nthMarkerIndex_cons_batch rest k he, List.drop_succ_cons, ih k h]

theorem nthMarkerIndex_head_marker (l : List HistEntry) (k : Nat) (h : k < markerCount l) :
    ∃ mm, (l.drop (nthMarkerIndex l k)).getD 0 padBatch = HistEntry.marker mm := by
  induction l generalizing k with
  | nil => simp [markerCount, List.countP_nil] at h
  | cons e rest ih =>
    cases he : isMarker e with
    | true =>
      rw [markerCount_cons_marker rest he] at h
      cases k with
      | zero =>
        rw [nthMarkerIndex_cons_marker_zero rest he, List.drop_zero]
        cases e with
        | marker mm => exact ⟨mm, rfl⟩
        | messages b => simp [isMarker] at he
      | succ k =>
        rw [nthMarkerIndex_cons_marker_succ rest k he, List.drop_succ_cons]
        exact ih k (by omega)
    | false =>
      rw [markerCount_cons_batch rest he] at h
      rw [nthMarkerIndex_cons_batch rest k he, List.drop_succ_cons]
      exact ih k h

/-! ### The cursor measure: markers strictly between the sentinel and the
cursor, plus one when the cursor rests on a batch -/

/-- Number of markers at indices `1 .. c` of the history. -/
def muAux (hist : List HistEntry) : Nat → Nat
  | 0 => 0
  | c + 1 => (if isMarker (hist.getD (c + 1) padMarker) then 1 else 0) + muAux hist c

/-- The undo-depth measure: each `undo()` cursor move decreases it by
exactly one until it reaches zero, which happens exactly at cursor 0. -/
def mu (s : UndoLogState) : Nat :=
  muAux s.history s.cursor
    + (if s.cursor ≠ 0 ∧ isMarker (s.history.getD s.cursor padMarker) = false then 1 else 0)

theorem muAux_congr (h1 h2 : List HistEntry) (c : Nat)
    (h : ∀ i, 1 ≤ i → i ≤ c → isMarker (h1.getD i padMarker) = isMarker (h2.getD i padMarker)) :
    muAux h1 c = muAux h2 c := by
  induction c with
  | zero => rfl
  | succ c ih =>
    unfold muAux
    rw [h (c + 1) (by omega) (by omega), ih (fun i hi1 hi2 => h i hi1 (by omega))]

theorem muAux_drop_le (l : List HistEntry) (k : Nat) : ∀ j, muAux (l.drop k) j ≤ muAux l (k + j)
  | 0 => Nat.zero_le _
  | j + 1 => by
    have hL : muAux (l.drop k) (j + 1)
        = (if isMarker ((l.drop k).getD (j + 1) padMarker) then 1 else 0)
          + muAux (l.drop k) j := rfl
    have hR : muAux l (k + (j + 1))
        = (if isMarker (l.getD (k + (j + 1)) padMarker) then 1 else 0) + muAux l (k + j) := rfl
    have h1 := muAux_drop_le l k j
    rw [hL, hR, getD_drop_add]
    omega

theorem mu_cursor_zero (s : UndoLogState) (h : s.cursor = 0) : mu s = 0 := by
  unfold mu
  rw [h]
  simp [muAux]

theorem mu_eq_zero_cursor (s : UndoLogState) (h : mu s = 0) : s.cursor = 0 := by
  by_contra hc
  unfold mu at h
  obtain ⟨k, hk⟩ : ∃ k, s.cursor = k + 1 := ⟨s.cursor - 1, by omega⟩
  rw [hk] at h
  unfold muAux at h
  by_cases hm : isMarker (s.history.getD (k + 1) padMarker)
  · rw [if_pos hm] at h
    omega
  · rw [if_neg hm] at h
    rw [if_pos ⟨by omega, by simpa using hm⟩] at h
    omega

theorem walkBack_mu (hist : List HistEntry) : ∀ c, mu ⟨hist, walkBack hist c⟩ = muAux hist c
  | 0 => by simp [walkBack, mu, muAux]
  | c + 1 => by
    unfold walkBack
    by_cases hm : isMarker (hist.getD (c + 1) padMarker)
    · rw [if_pos hm]
      unfold mu
      rw [if_neg (fun hcon => by rw [hm] at hcon; exact absurd hcon.2 (by simp))]
      rfl
    · rw [if_neg hm, walkBack_mu hist c]
      have hR : muAux hist (c + 1)
          = (if isMarker (hist.getD (c + 1) padMarker) then 1 else 0) + muAux hist c := rfl
      rw [hR, if_neg hm]
      omega

theorem mu_undo_succ (s : UndoLogState) (h : s.cursor ≠ 0) :
    mu ⟨s.history, undoCursor s⟩ + 1 = mu s := by
  obtain ⟨k, hk⟩ : ∃ k, s.cursor = k + 1 := ⟨s.cursor - 1, by omega⟩
  have h1 : mu ⟨s.history, undoCursor s⟩ = muAux s.history k := by
    unfold undoCursor
    rw [hk]
    simpa using walkBack_mu s.history k
  rw [h1]
  unfold mu
  rw [hk]
  have hR : muAux s.history (k + 1)
      = (if isMarker (s.history.getD (k + 1) padMarker) then 1 else 0)
        + muAux s.history k := rfl
  rw [hR]
  by_cases hm : isMarker (s.history.getD (k + 1) padMarker)
  · rw [if_pos hm, if_neg (fun hcon => by rw [hm] at hcon; exact absurd hcon.2 (by simp))]
    omega
  · rw [if_neg hm, if_pos ⟨by omega, by simpa using hm⟩]
    omega

/-- The pure state effect of one `undo()` call. -/
def undoStepState (s : UndoLogState) : UndoLogState := ⟨s.history, undoCursor s⟩

theorem undoStep_reaches_zero : ∀ (n : Nat) (s : UndoLogState), mu s ≤ n →
    (undoStepState^[n] s).cursor = 0
  | 0, s, h => mu_eq_zero_cursor s (by omega)
  | n + 1, s, h => by
    rw [Function.iterate_succ_apply]
    apply undoStep_reaches_zero n
    by_cases hc : s.cursor = 0
    · have : undoStepState s = ⟨s.history, 0⟩ := by
        unfold undoStepState undoCursor
        rw [hc]
        rfl
      rw [this]
      have := mu_cursor_zero ⟨s.history, 0⟩ rfl
      omega
    · have := mu_undo_succ s hc
      unfold undoStepState
      omega

/-! ### Facts about trimHistory -/

theorem getD_pad_eq {α : Type} (l : List α) (i : Nat) (h : i < l.length) (d1 d2 : α) :
    l.getD i d1 = l.getD i d2 := by
  rw [List.getD_eq_getElem?_getD, List.getD_eq_getElem?_getD, List.getElem?_eq_getElem h]
  rfl

theorem trimHistory_markerCount_le (s : UndoLogState) :
    markerCount (trimHistory s).history ≤ HISTORY_SIZE := by
  simp only [trimHistory]
  split
  · rename_i hlt
    dsimp only
    rw [markerCount_drop_nthMarkerIndex _ _ (by omega)]
    omega
  · rename_i hlt
    dsimp only
    omega

theorem trimHistory_shape (s : UndoLogState) (h : s.cursor < s.history.length) :
    (trimHistory s).history.length = (trimHistory s).cursor + 1 := by
  have hlen : (s.history.take (s.cursor + 1)).length = s.cursor + 1 := by
    rw [List.length_take]; omega
  simp only [trimHistory]
  split
  · rename_i hlt
    dsimp only
    have hcut := nthMarkerIndex_lt_length (s.history.take (s.cursor + 1))
      (markerCount (s.history.take (s.cursor + 1)) - HISTORY_SIZE)
      (by simp only [HISTORY_SIZE] at hlt ⊢; omega)
    rw [List.length_drop]
    omega
  · dsimp only
    omega

theorem trimHistory_head (s : UndoLogState) (_hc : s.cursor < s.history.length)
    (hh : ∃ mm, s.history.getD 0 padBatch = HistEntry.marker mm) :
    ∃ mm, (trimHistory s).history.getD 0 padBatch = HistEntry.marker mm := by
  simp only [trimHistory]
  split
  · rename_i hlt
    dsimp only
    exact nthMarkerIndex_head_marker _ _ (by simp only [HISTORY_SIZE] at hlt ⊢; omega)
  · dsimp only
    obtain ⟨mm, hmm⟩ := hh
    exact ⟨mm, by rw [getD_take_eq _ _ _ _ (by omega)]; exact hmm⟩

theorem trimHistory_muAux_getD (s : UndoLogState) (h : s.cursor < s.history.length) :
    muAux (trimHistory s).history (trimHistory s).cursor ≤ muAux s.history s.cursor
      ∧ (trimHistory s).history.getD (trimHistory s).cursor padMarker
          = s.history.getD s.cursor padMarker := by
  have hlen : (s.history.take (s.cursor + 1)).length = s.cursor + 1 := by
    rw [List.length_take]; omega
  have htake_muAux : muAux (s.history.take (s.cursor + 1)) s.cursor = muAux s.history s.cursor :=
    muAux_congr _ _ _ (fun i _ h2 => by rw [getD_take_eq _ _ _ _ (by omega)])
  have htake_getD : (s.history.take (s.cursor + 1)).getD s.cursor padMarker
      = s.history.getD s.cursor padMarker := getD_take_eq _ _ _ _ (by omega)
  simp only [trimHistory]
  split
  · rename_i hlt
    dsimp only
    have hcut : nthMarkerIndex (s.history.take (s.cursor + 1))
        (markerCount (s.history.take (s.cursor + 1)) - HISTORY_SIZE)
        < (s.history.take (s.cursor + 1)).length :=
      nthMarkerIndex_lt_length _ _ (by simp only [HISTORY_SIZE] at hlt ⊢; omega)
    have hcur : ((s.history.take (s.cursor + 1)).drop
        (nthMarkerIndex (s.history.take (s.cursor + 1))
          (markerCount (s.history.take (s.cursor + 1)) - HISTORY_SIZE))).length - 1
        = s.cursor - nthMarkerIndex (s.history.take (s.cursor + 1))
            (markerCount (s.history.take (s.cursor + 1)) - HISTORY_SIZE) := by
      rw [List.length_drop, hlen]
      omega
    rw [hcur]
    constructor
    · have h1 := muAux_drop_le (s.history.take (s.cursor + 1))
        (nthMarkerIndex (s.history.take (s.cursor + 1))
          (markerCount (s.history.take (s.cursor + 1)) - HISTORY_SIZE))
        (s.cursor - nthMarkerIndex (s.history.take (s.cursor + 1))
          (markerCount (s.history.take (s.cursor + 1)) - HISTORY_SIZE))
      have h2 : nthMarkerIndex (s.history.take (s.cursor + 1))
            (markerCount (s.history.take (s.cursor + 1)) - HISTORY_SIZE)
          + (s.cursor - nthMarkerIndex (s.history.take (s.cursor + 1))
              (markerCount (s.history.take (s.cursor + 1)) - HISTORY_SIZE))
          = s.cursor := by omega
      rw [h2] at h1
      rw [htake_muAux] at h1
      exact h1
    · rw [getD_drop_add]
      have h2 : nthMarkerIndex (s.history.take (s.cursor + 1))
            (markerCount (s.history.take (s.cursor + 1)) - HISTORY_SIZE)
          + (s.cursor - nthMarkerIndex (s.history.take (s.cursor + 1))
              (markerCount (s.history.take (s.cursor + 1)) - HISTORY_SIZE))
          = s.cursor := by omega
      rw [h2]
      exact htake_getD
  · dsimp only
    exact ⟨le_of_eq htake_muAux, htake_getD⟩

/-! ### Cursor bound lemmas -/

theorem walkBack_le (hist : List HistEntry) : ∀ c, walkBack hist c ≤ c
  | 0 => le_refl 0
  | c + 1 => by
    unfold walkBack
    split
    · exact le_refl _
    · exact le_trans (walkBack_le hist c) (by omega)

theorem undoCursor_lt (s : UndoLogState) (h : s.cursor < s.history.length) :
    undoCursor s < s.history.length := by
  have := walkBack_le s.history (s.cursor - 1)
  unfold undoCursor
  omega

theorem walkForwardAux_le (hist : List HistEntry) :
    ∀ fuel c, c ≤ hist.length - 1 → walkForwardAux hist fuel c ≤ hist.length - 1
  | 0, c, h => h
  | fuel + 1, c, h => by
    unfold walkForwardAux
    split
    · rename_i hcond
      obtain ⟨hc1, _⟩ := hcond
      exact walkForwardAux_le hist fuel (c + 1) (by omega)
    · exact h

theorem redoCursor_lt (s : UndoLogState) (h : 0 < s.history.length) :
    redoCursor s < s.history.length := by
  unfold redoCursor
  have := walkForwardAux_le s.history s.history.length
    (min (s.cursor + 1) (s.history.length - 1)) (by omega)
  omega

/-! ### One-step invariant preservation -/

/-- Basic well-formedness: the cursor is in range and the first entry is
a marker. -/
def CursorInv (s : UndoLogState) : Prop :=
  s.cursor < s.history.length
    ∧ ∃ mm, s.history.getD 0 padBatch = HistEntry.marker mm

theorem withUndoEnter_step (meta : Option String) (s : UndoLogState) (h : CursorInv s) :
    CursorInv (withUndoEnter meta s)
      ∧ mu (withUndoEnter meta s) = mu s
      ∧ isMarker ((withUndoEnter meta s).history.getD
          (withUndoEnter meta s).cursor padMarker) = true := by
  obtain ⟨hc, mm0, hm0⟩ := h
  have hlen : (s.history.take (s.cursor + 1)).length = s.cursor + 1 := by
    rw [List.length_take]; omega
  cases hL : (s.history.take (s.cursor + 1)).getLast? with
  | none =>
    exfalso
    rw [List.getLast?_eq_none_iff] at hL
    rw [hL] at hlen
    simp at hlen
  | some e =>
    have hEc : s.history.getD s.cursor padMarker = e := by
      rw [List.getLast?_eq_getElem?, hlen, Nat.add_sub_cancel, List.getElem?_take,
        if_pos (by omega)] at hL
      rw [List.getD_eq_getElem?_getD, hL]
      rfl
    cases e with
    | marker m =>
      have hdl_eq : (s.history.take (s.cursor + 1)).dropLast = s.history.take s.cursor := by
        rw [List.dropLast_eq_take, hlen, Nat.add_sub_cancel, List.take_take,
          Nat.min_eq_left (by omega)]
      have hTc : (s.history.take s.cursor).length = s.cursor := by
        rw [List.length_take]; omega
      have hAt : (s.history.take s.cursor ++ [HistEntry.marker meta]).getD s.cursor padMarker
          = HistEntry.marker meta := by
        have hx := getD_append_at (s.history.take s.cursor) (HistEntry.marker meta) padMarker
        rw [hTc] at hx
        exact hx
      have hmuAux' : muAux (s.history.take s.cursor ++ [HistEntry.marker meta]) s.cursor
          = muAux s.history s.cursor := by
        apply muAux_congr
        intro i h1 h2
        rcases Nat.eq_or_lt_of_le h2 with hieq | hi2
        · rw [hieq, hAt, hEc]
          rfl
        · rw [getD_append_left _ _ _ _ (by rw [hTc]; omega),
            getD_take_eq _ _ _ _ (by omega)]
      simp only [withUndoEnter, hL, hdl_eq]
      refine ⟨⟨?_, ?_⟩, ?_, ?_⟩
      · dsimp only
        rw [List.length_append, hTc]
        simp
      · by_cases hc0 : s.cursor = 0
        · dsimp only
          rw [hc0]
          exact ⟨meta, by simp⟩
        · refine ⟨mm0, ?_⟩
          dsimp only
          rw [getD_append_left _ _ _ _ (by rw [hTc]; omega),
            getD_take_eq _ _ _ _ (by omega)]
          exact hm0
      · unfold mu
        dsimp only
        rw [hmuAux', hAt,
          if_neg (fun hcon => absurd hcon.2 (by simp [isMarker])), hEc,
          if_neg (fun hcon => absurd hcon.2 (by simp [isMarker]))]
      · dsimp only
        rw [hAt]
        rfl
    | messages b =>
      have hc0 : s.cursor ≠ 0 := by
        intro h0
        rw [h0] at hEc
        rw [getD_pad_eq s.history 0 (by omega) padMarker padBatch, hm0] at hEc
        exact absurd hEc (by simp)
      have hAt : (s.history.take (s.cursor + 1) ++ [HistEntry.marker meta]).getD
          (s.cursor + 1) padMarker = HistEntry.marker meta := by
        have hx := getD_append_at (s.history.take (s.cursor + 1))
          (HistEntry.marker meta) padMarker
        rw [hlen] at hx
        exact hx
      have hmuAux' : muAux (s.history.take (s.cursor + 1) ++ [HistEntry.marker meta]) s.cursor
          = muAux s.history s.cursor := by
        apply muAux_congr
        intro i h1 h2
        rw [getD_append_left _ _ _ _ (by rw [hlen]; omega),
          getD_take_eq _ _ _ _ (by omega)]
      simp only [withUndoEnter, hL]
      refine ⟨⟨?_, ?_⟩, ?_, ?_⟩
      · dsimp only
        rw [List.length_append, hlen]
        simp
      · refine ⟨mm0, ?_⟩
        dsimp only
        rw [getD_append_left _ _ _ _ (by rw [hlen]; omega),
          getD_take_eq _ _ _ _ (by omega)]
        exact hm0
      · unfold mu
        dsimp only
        have hstep : muAux (s.history.take (s.cursor + 1) ++ [HistEntry.marker meta])
            (s.cursor + 1)
            = (if isMarker ((s.history.take (s.cursor + 1)
                ++ [HistEntry.marker meta]).getD (s.cursor + 1) padMarker) then 1 else 0)
              + muAux (s.history.take (s.cursor + 1) ++ [HistEntry.marker meta])
                  s.cursor := rfl
        rw [hstep, hAt, hmuAux',
          if_pos (show isMarker (HistEntry.marker meta) = true from rfl),
          if_neg (fun hcon => absurd hcon.2 (by simp [isMarker])), hEc,
          if_pos ⟨hc0, by rfl⟩]
        omega
      · dsimp only
        rw [hAt]
        rfl

theorem appendMessages_step (context : MutatorContext) (messages : List Message)
    (oldData : OldData) (s : UndoLogState) (h : CursorInv s) :
    CursorInv (appendMessages context messages oldData s)
      ∧ muAux (appendMessages context messages oldData s).history
          (appendMessages context messages oldData s).cursor ≤ muAux s.history s.cursor
      ∧ mu (appendMessages context messages oldData s) ≤ muAux s.history s.cursor + 1 := by
  obtain ⟨hc, hh⟩ := h
  unfold appendMessages
  split
  · dsimp only
    have hshape := trimHistory_shape s hc
    have hhead := trimHistory_head s hc hh
    have hmle := (trimHistory_muAux_getD s hc).1
    have hAt : ((trimHistory s).history
        ++ [HistEntry.messages ⟨messages, oldData, context.undoTag⟩]).getD
          ((trimHistory s).cursor + 1) padMarker
        = HistEntry.messages ⟨messages, oldData, context.undoTag⟩ := by
      have hx := getD_append_at (trimHistory s).history
        (HistEntry.messages ⟨messages, oldData, context.undoTag⟩) padMarker
      rw [hshape] at hx
      exact hx
    have hmuAux' : muAux ((trimHistory s).history
        ++ [HistEntry.messages ⟨messages, oldData, context.undoTag⟩]) (trimHistory s).cursor
        = muAux (trimHistory s).history (trimHistory s).cursor := by
      apply muAux_congr
      intro i h1 h2
      rw [getD_append_left _ _ _ _ (by omega)]
    have hstep : muAux ((trimHistory s).history
        ++ [HistEntry.messages ⟨messages, oldData, context.undoTag⟩])
          ((trimHistory s).cursor + 1)
        = (if isMarker (((trimHistory s).history
            ++ [HistEntry.messages ⟨messages, oldData, context.undoTag⟩]).getD
              ((trimHistory s).cursor + 1) padMarker) then 1 else 0)
          + muAux ((trimHistory s).history
              ++ [HistEntry.messages ⟨messages, oldData, context.undoTag⟩])
            (trimHistory s).cursor := rfl
    refine ⟨⟨?_, ?_⟩, ?_, ?_⟩
    · simp only [List.length_append, List.length_cons, List.length_nil]
      omega
    · obtain ⟨mm, hmm⟩ := hhead
      exact ⟨mm, by rw [getD_append_left _ _ _ _ (by omega)]; exact hmm⟩
    · rw [hstep, hAt, hmuAux',
        if_neg (show ¬ isMarker (HistEntry.messages
          ⟨messages, oldData, context.undoTag⟩) = true by simp [isMarker])]
      omega
    · unfold mu
      dsimp only
      rw [hstep, hAt, hmuAux',
        if_neg (show ¬ isMarker (HistEntry.messages
          ⟨messages, oldData, context.undoTag⟩) = true by simp [isMarker]),
        if_pos ⟨by omega, by rfl⟩]
      omega
  · refine ⟨⟨hc, hh⟩, le_refl _, ?_⟩
    unfold mu
    split
    · omega
    · omega

/-! ### The capacity invariant -/

/-- Whether the last log entry is a marker (`true` on the empty history,
which is unreachable). -/
def lastIsMarker (s : UndoLogState) : Bool :=
  match s.history.getLast? with
  | some e => isMarker e
  | none => true

/-- The capacity invariant: at most `H + 1` markers ever; at most `H`
whenever the last entry is a batch. -/
def QInv (s : UndoLogState) : Prop :=
  markerCount s.history ≤ HISTORY_SIZE + 1
    ∧ (lastIsMarker s = false → markerCount s.history ≤ HISTORY_SIZE)

theorem dropLast_append_of_getLast? {α : Type} (l : List α) (e : α)
    (h : l.getLast? = some e) : l.dropLast ++ [e] = l := by
  have hne : l ≠ [] := by intro h0; rw [h0] at h; simp at h
  rw [List.getLast?_eq_getLast l hne, Option.some_inj] at h
  rw [← h]
  exact List.dropLast_append_getLast hne

theorem markerCount_getLast? (l : List HistEntry) (e : HistEntry)
    (h : l.getLast? = some e) :
    markerCount l = markerCount l.dropLast + (if isMarker e then 1 else 0) := by
  conv_lhs => rw [← dropLast_append_of_getLast? l e h]
  rw [markerCount_append]
  congr 1
  simp [markerCount, List.countP_cons, List.countP_nil]

theorem markerCount_singleton_marker (meta : Option String) :
    markerCount [HistEntry.marker meta] = 1 := by
  simp [markerCount, List.countP_cons, List.countP_nil, isMarker]

theorem withUndoEnter_Q (meta : Option String) (s : UndoLogState)
    (hc : s.cursor < s.history.length) (hq : QInv s) :
    QInv (withUndoEnter meta s) := by
  obtain ⟨hq1, hq2⟩ := hq
  have hlen : (s.history.take (s.cursor + 1)).length = s.cursor + 1 := by
    rw [List.length_take]; omega
  cases hL : (s.history.take (s.cursor + 1)).getLast? with
  | none =>
    exfalso
    rw [List.getLast?_eq_none_iff] at hL
    rw [hL] at hlen
    simp at hlen
  | some e =>
    cases e with
    | marker m =>
      simp only [withUndoEnter, hL]
      constructor
      · dsimp only
        rw [markerCount_append, markerCount_singleton_marker]
        have hdl := markerCount_getLast? _ _ hL
        rw [if_pos (show isMarker (HistEntry.marker m) = true from rfl)] at hdl
        have htk := markerCount_take_le s.history (s.cursor + 1)
        omega
      · intro hfalse
        exfalso
        unfold lastIsMarker at hfalse
        dsimp only at hfalse
        rw [List.getLast?_concat] at hfalse
        simp [isMarker] at hfalse
    | messages b =>
      have hcount_take : markerCount (s.history.take (s.cursor + 1)) ≤ HISTORY_SIZE := by
        cases hlast : lastIsMarker s with
        | false => exact le_trans (markerCount_take_le _ _) (hq2 hlast)
        | true =>
          unfold lastIsMarker at hlast
          cases hGL : s.history.getLast? with
          | none =>
            exfalso
            rw [List.getLast?_eq_none_iff] at hGL
            rw [hGL] at hc
            simp at hc
          | some eL =>
            rw [hGL] at hlast
            by_cases hend : s.history.length ≤ s.cursor + 1
            · exfalso
              have hTake : s.history.take (s.cursor + 1) = s.history :=
                List.take_of_length_le hend
              rw [hTake, hGL] at hL
              injection hL with hL1
              rw [hL1] at hlast
              simp [isMarker] at hlast
            · push_neg at hend
              have hdl : markerCount s.history = markerCount s.history.dropLast + 1 := by
                rw [markerCount_getLast? s.history eL hGL, if_pos hlast]
              have htt : s.history.take (s.cursor + 1)
                  = s.history.dropLast.take (s.cursor + 1) := by
                rw [List.dropLast_eq_take, List.take_take, Nat.min_eq_left (by omega)]
              rw [htt]
              have htk := markerCount_take_le s.history.dropLast (s.cursor + 1)
              omega
      simp only [withUndoEnter, hL]
      constructor
      · dsimp only
        rw [markerCount_append, markerCount_singleton_marker]
        omega
      · intro hfalse
        exfalso
        unfold lastIsMarker at hfalse
        dsimp only at hfalse
        rw [List.getLast?_concat] at hfalse
        simp [isMarker] at hfalse

theorem appendMessages_Q (context : MutatorContext) (messages : List Message)
    (oldData : OldData) (s : UndoLogState) (hq : QInv s) :
    QInv (appendMessages context messages oldData s) := by
  unfold appendMessages
  split
  · dsimp only
    have hcnt := trimHistory_markerCount_le s
    constructor
    · rw [markerCount_append]
      have h1 : markerCount [HistEntry.messages ⟨messages, oldData, context.undoTag⟩] = 0 := by
        simp [markerCount, List.countP_cons, List.countP_nil, isMarker]
      omega
    · intro _
      rw [markerCount_append]
      have h1 : markerCount [HistEntry.messages ⟨messages, oldData, context.undoTag⟩] = 0 := by
        simp [markerCount, List.countP_cons, List.countP_nil, isMarker]
      omega
  · exact hq

/-! ### The reachable-state invariant -/

/-- The master invariant over reachable log states. -/
def LogInv (s : UndoLogState) : Prop := CursorInv s ∧ QInv s

theorem logInv_init : LogInv initState := by
  refine ⟨⟨by decide, ⟨none, rfl⟩⟩, ?_, ?_⟩
  · decide
  · intro _
    decide

theorem reachable_logInv {s : UndoLogState} (h : Reachable s) : LogInv s := by
  induction h with
  | init => exact logInv_init
  | withUndoStep meta hR ih =>
    obtain ⟨hcur, hq⟩ := ih
    exact ⟨(withUndoEnter_step meta _ hcur).1, withUndoEnter_Q meta _ hcur.1 hq⟩
  | appendStep context messages oldData hR ih =>
    obtain ⟨hcur, hq⟩ := ih
    exact ⟨(appendMessages_step context messages oldData _ hcur).1,
      appendMessages_Q context messages oldData _ hq⟩
  | undoStep context oldData hR ih =>
    obtain ⟨⟨hlt, hhead⟩, hq⟩ := ih
    rw [undoRun_fst]
    exact ⟨⟨undoCursor_lt _ hlt, hhead⟩, hq⟩
  | redoStep context oldData hR ih =>
    obtain ⟨⟨hlt, hhead⟩, hq⟩ := ih
    rw [redoRun_fst]
    exact ⟨⟨redoCursor_lt _ (by omega), hhead⟩, hq⟩
  | clearStep hR ih => exact logInv_init

/-! ### Claim C5 -/

/-- C5 counterexample: a reachable state (one `withUndo` scope that
recorded two batches) whose entries 1 and 2 are both operation batches —
the second batch is not immediately preceded by a marker, so the log does
contain two operation batches with no marker between them. -/
theorem claim_C5_counterexample :
    Reachable c3Base
      ∧ c3Base.history.length = 3
      ∧ isMarker (c3Base.history.getD 1 padMarker) = false
      ∧ isMarker (c3Base.history.getD 2 padMarker) = false := by
  refine ⟨?_, by decide, by decide, by decide⟩
  exact Reachable.appendStep ⟨true, false, "t"⟩ _ []
    (Reachable.appendStep ⟨true, false, "t"⟩ _ []
      (Reachable.withUndoStep none Reachable.init))

/-- C5 amended: in every reachable log state the first entry is a
Boundary Marker; operation batches need not each be preceded by a marker
— all batches recorded within one `withUndo` scope sit adjacent after
the single marker of their transaction. -/
theorem claim_C5_amended {s : UndoLogState} (h : Reachable s) :
    ∃ mm, s.history.getD 0 padBatch = HistEntry.marker mm :=
  (reachable_logInv h).1.2

/-- Witness for the amended C5 at the initial state. -/
theorem claim_C5_witness :
    ∃ mm, initState.history.getD 0 padBatch = HistEntry.marker mm :=
  claim_C5_amended Reachable.init

/-! ### Claim C6 -/

theorem reachable_foldl_append (tag : String) (bs : List RecordedBatch) :
    ∀ (s : UndoLogState), Reachable s →
      Reachable (bs.foldl
        (fun s b => appendMessages ⟨true, false, tag⟩ b.messages b.oldData s) s) := by
  induction bs with
  | nil => exact fun s h => h
  | cons b rest ih =>
    intro s h
    rw [List.foldl_cons]
    exact ih _ (Reachable.appendStep _ _ _ h)

theorem reachable_runTxn (t : Txn) (s : UndoLogState) (h : Reachable s) :
    Reachable (runTxn t s) :=
  reachable_foldl_append t.tag t.batches _ (Reachable.withUndoStep t.meta h)

theorem reachable_runTxns (ts : List Txn) :
    ∀ (s : UndoLogState), Reachable s → Reachable (runTxns ts s) := by
  induction ts with
  | nil => exact fun s h => h
  | cons t rest ih =>
    intro s h
    exact ih _ (reachable_runTxn t s h)

/-- A transaction recording one single-message batch, used to fill the
log to capacity. -/
def fillTxn : Txn :=
  ⟨none, "t", [⟨[⟨"transactions", "r1", "amount", Value.int 500⟩], []⟩]⟩

/-- 20 recorded transactions, then a 21st `withUndo` scope entered. -/
def c6State : UndoLogState :=
  withUndoEnter none (runTxns (List.replicate 20 fillTxn) initState)

set_option maxRecDepth 8000 in
/-- C6 counterexample: entering the 21st `withUndo` scope pushes a 21st
marker before any trimming happens (`trimHistory` runs only inside
`appendMessages`), so this reachable state holds `H + 1 = 21` markers —
the count does exceed `H`. -/
theorem claim_C6_counterexample :
    Reachable c6State ∧ markerCount c6State.history = HISTORY_SIZE + 1 := by
  constructor
  · exact Reachable.withUndoStep none (reachable_runTxns _ _ Reachable.init)
  · decide

/-- C6 amended: in every reachable state the log holds at most `H + 1`
Boundary Markers, and at most `H` whenever the last entry is an
operation batch (in particular immediately after any batch is recorded,
since recording trims first); trimming drops the oldest whole
transactions — the retained log still begins at a Boundary Marker, never
inside a batch. -/
theorem claim_C6_amended {s : UndoLogState} (h : Reachable s) :
    markerCount s.history ≤ HISTORY_SIZE + 1
      ∧ (lastIsMarker s = false → markerCount s.history ≤ HISTORY_SIZE)
      ∧ (∃ mm, s.history.getD 0 padBatch = HistEntry.marker mm) := by
  obtain ⟨⟨hlt, hhead⟩, hq1, hq2⟩ := reachable_logInv h
  exact ⟨hq1, hq2, hhead⟩

/-- Witness for the amended C6 at the initial state. -/
theorem claim_C6_witness :
    markerCount initState.history ≤ HISTORY_SIZE + 1
      ∧ (lastIsMarker initState = false → markerCount initState.history ≤ HISTORY_SIZE)
      ∧ (∃ mm, initState.history.getD 0 padBatch = HistEntry.marker mm) :=
  claim_C6_amended Reachable.init

/-! ### Claim C1 -/

theorem runTxn_mu (t : Txn) (s : UndoLogState) (h : CursorInv s) :
    CursorInv (runTxn t s) ∧ mu (runTxn t s) ≤ mu s + 1 := by
  obtain ⟨hcur0, hmu0, hmark0⟩ := withUndoEnter_step t.meta s h
  have hAux0 : muAux (withUndoEnter t.meta s).history (withUndoEnter t.meta s).cursor
      = mu s := by
    have hx : mu (withUndoEnter t.meta s)
        = muAux (withUndoEnter t.meta s).history (withUndoEnter t.meta s).cursor := by
      unfold mu
      rw [if_neg (fun hcon => by rw [hmark0] at hcon; exact absurd hcon.2 (by simp))]
      omega
    omega
  have hP : ∀ (bs : List RecordedBatch) (x : UndoLogState), CursorInv x →
      muAux x.history x.cursor ≤ mu s → mu x ≤ mu s + 1 →
      CursorInv (bs.foldl
          (fun s b => appendMessages ⟨true, false, t.tag⟩ b.messages b.oldData s) x)
        ∧ mu (bs.foldl
            (fun s b => appendMessages ⟨true, false, t.tag⟩ b.messages b.oldData s) x)
          ≤ mu s + 1 := by
    intro bs
    induction bs with
    | nil => exact fun x h1 _ h3 => ⟨h1, h3⟩
    | cons b rest ih =>
      intro x h1 h2 h3
      rw [List.foldl_cons]
      obtain ⟨hc', ha', hm'⟩ := appendMessages_step ⟨true, false, t.tag⟩ b.messages b.oldData x h1
      exact ih _ hc' (le_trans ha' h2) (le_trans hm' (by omega))
  exact hP t.batches _ hcur0 (le_of_eq hAux0) (by omega)

theorem runTxns_mu (ts : List Txn) : ∀ (s : UndoLogState), CursorInv s →
    CursorInv (runTxns ts s) ∧ mu (runTxns ts s) ≤ mu s + ts.length := by
  induction ts with
  | nil =>
    intro s h
    have hx : runTxns [] s = s := rfl
    rw [hx]
    exact ⟨h, by simp only [List.length_nil]; omega⟩
  | cons t rest ih =>
    intro s h
    obtain ⟨h1, h2⟩ := runTxn_mu t s h
    obtain ⟨h3, h4⟩ := ih (runTxn t s) h1
    have hgoal : runTxns (t :: rest) s = runTxns rest (runTxn t s) := rfl
    rw [hgoal]
    refine ⟨h3, ?_⟩
    simp only [List.length_cons]
    omega

/-- C1: after any sequence of `n` recorded transactions (each a
`withUndo` scope recording at least one non-empty operation batch)
starting from the initial sentinel log, `n` calls to `undo()` bring the
cursor back to the sentinel position 0 — for every `n`, including `n`
larger than the capacity `H` (where trimming has dropped the oldest
transactions). -/
theorem claim_C1_n_undos_return_to_sentinel (context : MutatorContext) (oldData : OldData)
    (ts : List Txn)
    (h : ∀ t ∈ ts, t.batches ≠ [] ∧ ∀ b ∈ t.batches, b.messages ≠ []) :
    (((fun s => (undoRun context oldData s).1)^[ts.length]) (runTxns ts initState)).cursor
      = 0 := by
  have hfun : (fun s => (undoRun context oldData s).1) = undoStepState := by
    funext s
    rw [undoRun_fst]
    rfl
  rw [hfun]
  apply undoStep_reaches_zero
  have hinit : CursorInv initState := ⟨by decide, ⟨none, rfl⟩⟩
  have hmu0 : mu initState = 0 := mu_cursor_zero _ rfl
  obtain ⟨_, hbound⟩ := runTxns_mu ts initState hinit
  omega

/-- Witness for C1 with 21 transactions — one more than the capacity
`H = 20`, so trimming occurs along the way. -/
theorem claim_C1_witness :
    (∀ t ∈ List.replicate 21 fillTxn, t.batches ≠ [] ∧ ∀ b ∈ t.batches, b.messages ≠ [])
      ∧ (((fun s => (undoRun ⟨false, false, ""⟩ [] s).1)^[(List.replicate 21 fillTxn).length])
            (runTxns (List.replicate 21 fillTxn) initState)).cursor = 0 :=
  ⟨by decide, claim_C1_n_undos_return_to_sentinel ⟨false, false, ""⟩ [] _ (by decide)⟩

end ActualUndo
